import Mathlib

/-!
Verification of `pokedex/util/movesets.py` (moveset search engine).

The Python source is shallowly embedded below.  Python dictionaries are
modelled as association lists (iteration order = list order; for dicts and
sets keyed by small integers, CPython 2 iterates in ascending key order,
which is the order used when iterating embedded sets and when instantiating
concrete data).  Python `None` results become `Option`, raised exceptions
become an explicit error value, and generator functions become functions
returning the list of yielded items together with an optional error that
aborted the iteration.  The file has two parts: first the definitions
embedding the source, then the lemmas and theorems about them.
-/

namespace Movesets

/-- Opaque identifiers from the data store are modelled as naturals. -/
abbrev Move := Nat
abbrev Pokemon := Nat
abbrev VersionGroup := Nat
abbrev EggGroup := Nat
abbrev Chain := Nat

/-- Association-list lookup (model of Python `dict.get`). -/
def alGet {α β : Type} [DecidableEq α] : List (α × β) → α → Option β
  | [], _ => none
  | (a, b) :: t, a' => if a = a' then some b else alGet t a'

/-- Association-list update-or-insert (model of Python `dict.__setitem__`). -/
def alSet {α β : Type} [DecidableEq α] : List (α × β) → α → β → List (α × β)
  | [], a, b => [(a, b)]
  | (a', b') :: t, a, b => if a' = a then (a, b) :: t else (a', b') :: alSet t a b

/-- The `default_costs` table (`movesets.py` lines 518-553), as a map from
method/action identifier to cost.  Keys missing from the Python dict raise
`KeyError` there (a configuration error); no claim exercises a missing key,
so the model is total with junk value 0 outside the table. -/
def defaultCosts : String → Nat
  | "level-up" => 20
  | "machine" => 40
  | "machine-once" => 2000
  | "tutor" => 60
  | "tutor-once" => 2100
  | "sketch" => 5
  | "stadium-surfing-pikachu" => 100
  | "light-ball-egg" => 100
  | "colosseum-purification" => 100
  | "xd-shadow" => 100
  | "xd-purification" => 100
  | "form-change" => 100
  | "evolution" => 100
  | "evolution-delayed" => 50
  | "breed" => 400
  | "trade" => 200
  | "transfer" => 200
  | "forget" => 300
  | "relearn" => 150
  | "per-level" => 1
  | _ => 0

/-- The exception classes of `movesets.py` lines 22-27 (all subclasses of
`ValueError`), plus the bare `ValueError` raised at line 631. -/
inductive Err : Type where
  | noMoves (msg : String)
  | tooManyMoves (msg : String)
  | movesNotLearnable (msg : String)
  | noParent (msg : String)
  | targetExcluded (msg : String)
  | valueError (msg : String)
deriving DecidableEq, Repr

/-- The validation prologue of `MovesetSearch.__init__` (lines 50-54):
an empty move list and a move list longer than four both set `self.error`
(note that BOTH branches build a `NoMoves` instance). -/
def movesetSearchSetup (moves : List Move) : Option Err :=
  if moves = [] then some (Err.noMoves "No moves specified.")
  else if moves.length > 4 then some (Err.noMoves "Too many moves specified.")
  else none

/-- `MovesetSearch.__iter__` (lines 508-512): when setup recorded an error,
iterating raises it instead of yielding any result. -/
def searchIter (setupError : Option Err) : Except Err Unit :=
  match setupError with
  | some e => Except.error e
  | none => Except.ok ()

/-- `MovesetSearch.trade_cost` (lines 252-277).  `gens` is the
`generation_id_by_version_group` mapping (generation ids are positive
integers in the data store); `thingGens` are the generations of the things
being traded.  `none` models Python `None` ("impossible"). -/
def tradeCost (costs : String → Nat) (gens : VersionGroup → Nat)
    (vgFrom vgTo : VersionGroup) (thingGens : List Nat) : Option Nat :=
  let genFrom := gens vgFrom
  let genTo := gens vgTo
  if genFrom = genTo then some (costs "trade")
  else if thingGens.any (fun g => g > genTo) then none
  else if genFrom = 1 ∨ genFrom = 2 then
    if genTo = 1 ∨ genTo = 2 then some (costs "trade") else none
  else if genTo = 1 ∨ genTo = 2 then none
  else if genFrom > genTo then none
  else if genFrom < genTo - 1 then none
  else some (costs "trade" + costs "transfer")

/-- Claim C3's characterisation of `trade_cost`, written from the spec's
words in the spec's order: same generation gives the trade cost; otherwise
any traded thing newer than the destination is impossible; generations 1-2
interoperate only with each other; a destination in 1-2, a backwards trade,
or a gap of more than one generation is impossible; and the trade+transfer
cost applies exactly for an adjacent forward transfer from generation >= 3. -/
def tradeCostSpec (costs : String → Nat) (gens : VersionGroup → Nat)
    (vgFrom vgTo : VersionGroup) (thingGens : List Nat) : Option Nat :=
  let genFrom := gens vgFrom
  let genTo := gens vgTo
  if genFrom = genTo then some (costs "trade")
  else if thingGens.any (fun g => g > genTo) then none
  else if genFrom = 1 ∨ genFrom = 2 then
    if genTo = 1 ∨ genTo = 2 then some (costs "trade") else none
  else if genTo = 1 ∨ genTo = 2 then none
  else if genFrom > genTo then none
  else if genTo - genFrom > 1 then none
  else if genTo = genFrom + 1 ∧ 3 ≤ genFrom then some (costs "trade" + costs "transfer")
  else none

/-! ### Move pool loading (`MovesetSearch.load_pokemon_moves`, lines 157-250) -/

/-- One row of the move query (line 173-180): pokemon id, move id, version
group id, method identifier, level and the pokemon's evolution chain.
Rows with NULL level are represented with level 0 (level is only consulted
for level-up records). -/
structure MoveRow : Type where
  pokemon : Pokemon
  move : Move
  vg : VersionGroup
  method : String
  level : Nat
  chain : Chain
deriving DecidableEq, Repr

/-- The `selection` argument of `load_pokemon_moves`. -/
inductive Selection : Type where
  | family
  | others
deriving DecidableEq, Repr

/-- Static context consulted by `load_pokemon_moves`: goal moves, the id of
the sketch move, `generation_id_by_version_group`, `evolution_chains`,
`evolution_moves` and the cost table. -/
structure LoadCtx : Type where
  goalMoves : Finset Move
  sketch : Move
  genByVG : VersionGroup → Nat
  evolutionChains : Pokemon → Chain
  evolutionMoves : List (Chain × Move)
  costs : String → Nat

/-- Accumulated state of the `load_pokemon_moves` loop: `movepools` (evo
chain -> move -> best cost), `learnpools` (evo chain -> moves learnable
without breeding), `smeargleFamilies`, the flattened `pokemon_moves`
records (in insertion order), and the two returned accumulators. -/
structure LoadState : Type where
  movepools : List (Chain × List (Move × Nat))
  learnpools : List (Chain × Finset Move)
  smeargleFamilies : Finset Chain
  pokemonMovesAcc : List (Pokemon × VersionGroup × Move × String × Nat × Nat)
  easyMoves : Finset Move
  nonEggMoves : Finset Move

/-- The per-row cost computation for goal moves (lines 214-225). -/
def goalMoveCost (ctx : LoadCtx) (row : MoveRow) : Nat :=
  if row.method = "level-up" then ctx.costs "level-up"
  else
    let gen := ctx.genByVG row.vg
    if row.method = "machine" ∧ gen < 5 then ctx.costs "machine-once"
    else if row.method = "tutor" ∧ gen = 3 then ctx.costs "tutor-once"
    else if row.method = "egg" then ctx.costs "breed"
    else ctx.costs row.method

/-- One iteration of the `load_pokemon_moves` loop body (lines 212-244). -/
def loadRow (ctx : LoadCtx) (st : LoadState) (row : MoveRow) : LoadState :=
  if row.move ∈ ctx.goalMoves then
    let cost := goalMoveCost ctx row
    let oldPool := (alGet st.movepools row.chain).getD []
    let newBest := min ((alGet oldPool row.move).getD cost) cost
    let st := { st with movepools := alSet st.movepools row.chain (alSet oldPool row.move newBest) }
    let st :=
      if row.method ≠ "egg" then
        { st with
          learnpools := alSet st.learnpools row.chain
            (insert row.move ((alGet st.learnpools row.chain).getD ∅))
          nonEggMoves := insert row.move st.nonEggMoves
          easyMoves := if cost < ctx.costs "breed" then insert row.move st.easyMoves
                       else st.easyMoves }
      else st
    { st with pokemonMovesAcc :=
        st.pokemonMovesAcc ++ [(row.pokemon, row.vg, row.move, row.method, row.level, cost)] }
  else if row.move = ctx.sketch then
    { st with
      smeargleFamilies := insert (ctx.evolutionChains row.pokemon) st.smeargleFamilies
      pokemonMovesAcc := st.pokemonMovesAcc ++
        [(row.pokemon, row.vg, row.move, row.method, row.level, ctx.costs "sketch")] }
  else
    -- An evolution move (lines 236-243); skipped unless it is this
    -- pokemon's own family's required evolution move, else cost 1.
    let chain := ctx.evolutionChains row.pokemon
    if alGet ctx.evolutionMoves chain = some row.move then
      { st with pokemonMovesAcc := st.pokemonMovesAcc ++
          [(row.pokemon, row.vg, row.move, row.method, row.level, 1)] }
    else st

/-- The query-side `selection` filter (lines 196-202): with a goal chain
present, `family` keeps only rows of that chain and `others` keeps only
rows outside it; with no goal chain no filter applies. -/
def selectRows (goalChain : Option Chain) (selection : Selection) (rows : List MoveRow) :
    List MoveRow :=
  match goalChain with
  | none => rows
  | some c =>
    match selection with
    | Selection.family => rows.filter (fun r => r.chain = c)
    | Selection.others => rows.filter (fun r => r.chain ≠ c)

/-- The state before the first `load_pokemon_moves` call: the empty
`movepools`, `learnpools` and `pokemon_moves` set up at lines 95-101. -/
def emptyLoadState : LoadState :=
  { movepools := [], learnpools := [], smeargleFamilies := ∅,
    pokemonMovesAcc := [], easyMoves := ∅, nonEggMoves := ∅ }

/-- `MovesetSearch.load_pokemon_moves` (lines 157-250): folds the loop body
over the (already otherwise-filtered) query rows restricted by `selection`.
`movepools`, `learnpools` and `pokemon_moves` persist across calls (they are
attributes of the search object), so they are taken from the incoming state
`st0`; `easy_moves`, `non_egg_moves` (lines 204-205) and
`smeargle_families` (line 206) are reset on every call.  The Python
function returns `(easy_moves, non_egg_moves)`; the whole final state is
returned here, with those two sets as fields. -/
def loadPokemonMoves (ctx : LoadCtx) (goalChain : Option Chain) (selection : Selection)
    (rows : List MoveRow) (st0 : LoadState) : LoadState :=
  (selectRows goalChain selection rows).foldl (loadRow ctx)
    { st0 with smeargleFamilies := ∅, easyMoves := ∅, nonEggMoves := ∅ }

/-! ### Breeding reachability (`MovesetSearch.construct_breed_graph`, lines 367-462) -/

/-- `breeds_required`: egg group -> exact moveset -> best breed count.
Modelled as a nested association list; `defaultdict` auto-vivification of
empty inner dicts on read is omitted, which is observationally equivalent
(an empty inner dict yields the same lookup results and the same
truth-value as an absent one). -/
abbrev Req := List (EggGroup × List (Finset Move × Nat))

/-- Lookup in `breeds_required`. -/
def reqGet (req : Req) (g : EggGroup) (m : Finset Move) : Option Nat :=
  (alGet req g).bind (fun l => alGet l m)

/-- `breeds_required[group][moves] = v`. -/
def reqSet (req : Req) (g : EggGroup) (m : Finset Move) (v : Nat) : Req :=
  alSet req g (alSet ((alGet req g).getD []) m v)

/-- `breeds_required[group][moves] = min(breeds_required[group].get(moves, 999), v)`
(line 454, with `v = len(path) - 1`). -/
def reqMin (req : Req) (g : EggGroup) (m : Finset Move) (v : Nat) : Req :=
  reqSet req g m (min ((reqGet req g m).getD 999) v)

/-- Truthiness of `breeds_required[egg_group]` (used at line 580):
a present, non-empty inner dict. -/
def reqNonempty (req : Req) (g : EggGroup) : Bool :=
  match alGet req g with
  | some l => !l.isEmpty
  | none => false

/-- Input to `construct_breed_graph`, i.e. the `MovesetSearch` attributes it
reads: `egg_groups` (chain -> tuple of egg groups, the goal chain's entry
included), the goal chain, `smeargle_families`, `movepools` (only the key
sets are consulted here), `learnpools`, `goal_moves` and `egg_moves`.
When no target pokemon is given `goal_evolution_chain` is `None` and its
egg-group entry is empty; that degenerate case is not modelled. -/
structure BreedInput : Type where
  eggGroups : List (Chain × List EggGroup)
  goalChain : Chain
  smeargleFamilies : Finset Chain
  movepools : List (Chain × Finset Move)
  learnpools : List (Chain × Finset Move)
  goalMoves : Finset Move
  eggMoves : Finset Move

/-- Part I results (lines 381-409): per-group passable pool, per-group
learnable pool and the set of candidate groups.  `eg2_movepools` is also
computed by the Python code but is only ever read by the debug printout
(lines 417-420), so it is not modelled. -/
structure BreedCtx : Type where
  eg1Movepools : List (EggGroup × Finset Move)
  learnPools : List (EggGroup × Finset Move)
  allGroups : Finset EggGroup

/-- Part I of `construct_breed_graph` (lines 393-409): one family's update. -/
def breedCtxStep (inp : BreedInput) (ctx : BreedCtx) (entry : Chain × List EggGroup) :
    BreedCtx :=
  let (family, groups) := entry
  if groups = [] then ctx
  else if family = inp.goalChain then ctx
  else
    let pool := if family ∈ inp.smeargleFamilies then inp.goalMoves
                else ((alGet inp.movepools family).getD ∅) ∩ inp.goalMoves
    let learnpool := ((alGet inp.learnpools family).getD ∅) ∩ pool
    groups.foldl
      (fun ctx g =>
        { eg1Movepools := alSet ctx.eg1Movepools g
            (((alGet ctx.eg1Movepools g).getD ∅) ∪ pool)
          learnPools := alSet ctx.learnPools g
            (((alGet ctx.learnPools g).getD ∅) ∪ learnpool)
          allGroups := insert g ctx.allGroups })
      ctx

/-- Part I of `construct_breed_graph` over all families.  The Python
iteration order over the `egg_groups` dict is irrelevant: the pools are
accumulated unions and `all_groups` an accumulated set. -/
def breedCtxOf (inp : BreedInput) : BreedCtx :=
  inp.eggGroups.foldl (breedCtxStep inp) ⟨[], [], ∅⟩

/-- Passable pool of a group (`eg1_movepools[new_group]`, a defaultdict). -/
def eg1Of (ctx : BreedCtx) (g : EggGroup) : Finset Move :=
  ((alGet ctx.eg1Movepools g).getD ∅)

/-- Learnable pool of a group (`learn_pools[new_group]`, a defaultdict). -/
def lpOf (ctx : BreedCtx) (g : EggGroup) : Finset Move :=
  ((alGet ctx.learnPools g).getD ∅)

/-- Helper for `ascList`: extract minima repeatedly, with fuel. -/
def ascListAux : Nat → Finset Nat → List Nat
  | 0, _ => []
  | fuel + 1, s =>
    if h : s.Nonempty then s.min' h :: ascListAux fuel (s.erase (s.min' h)) else []

/-- The elements of a finite set of naturals in ascending order, modelling
CPython 2 iteration over a set or frozenset of small ints (which visits
ascending hash order, and small ints hash to themselves). -/
def ascList (s : Finset Nat) : List Nat :=
  ascListAux s.card s

/-- All subsets of a list of moves. -/
def powersetAux : List Move → List (Finset Move)
  | [] => [∅]
  | a :: t => powersetAux t ++ (powersetAux t).map (insert a)

/-- All subsets of a finite set of moves as a list, modelling
`powerset(...)` (lines 33-38, used at lines 447 and 459): every subset of
the argument occurs exactly once.  Python enumerates by increasing subset
size; this list can interleave sizes differently, which only permutes the
order in which the loop's branches are explored (the loop has no early
exit).  The universal theorems below depend only on membership, and the
concrete tables evaluated below were checked to be insensitive to the
exploration order at the entries consulted. -/
def powersetList (s : Finset Move) : List (Finset Move) :=
  powersetAux (ascList s)

/-- The recursive `handle(group, moves, path)` of `construct_breed_graph`
(lines 427-456), with explicit state threading and a fuel parameter for
termination.  Each recursive call extends `path` by a fresh group out of
`all_groups`, so with fuel exceeding `all_groups.card + 1` the fuel is
never exhausted; `constructBreedGraph` below supplies such fuel.  The
Python code also computes `new_groups = tuple(sorted([group, new_group]))`
(line 443) but never uses it.  Candidate groups are iterated in ascending
order, matching CPython 2 iteration over a set of small ints. -/
def handle (ctx : BreedCtx) (fuel : Nat) (req : Req) (group : EggGroup)
    (moves : Finset Move) (path : List EggGroup) : Bool × Req :=
  if moves = ∅ then (true, req)
  else if (reqGet req group moves).getD 999 ≤ path.length then (true, req)
  else
    match fuel with
    | 0 => (false, req)
    | fuel + 1 =>
      let path' := path ++ [group]
      ((ascList ctx.allGroups).filter (fun g => g ∉ path')).foldl
        (fun acc newGroup =>
          if moves ⊆ eg1Of ctx newGroup then
            (powersetList (moves ∩ lpOf ctx newGroup)).foldl
              (fun acc2 learned =>
                let res := handle ctx fuel acc2.2 newGroup (moves \ learned) path'
                if res.1 then (true, reqMin res.2 group moves path.length)
                else (acc2.1, res.2))
              acc
          else acc)
        (false, req)

/-- The seeding loop of `construct_breed_graph` (lines 459-461): every
non-empty subset of the non-egg goal moves, unioned with the egg moves,
is assigned breed count 1 unconditionally. -/
def seedGroup (inp : BreedInput) (req : Req) (group : EggGroup) : Req :=
  (powersetList (inp.goalMoves \ inp.eggMoves)).foldl
    (fun req s => if s ≠ ∅ then reqSet req group (s ∪ inp.eggMoves) 1 else req)
    req

/-- The `goal_egg_groups` tuple (line 390): `egg_groups[goal_evolution_chain]`. -/
def goalEggGroupsOf (inp : BreedInput) : List EggGroup :=
  (alGet inp.eggGroups inp.goalChain).getD []

/-- One iteration of the loop at lines 457-461: `handle(group, goal, ())`
followed by the seeding of `group`. -/
def breedGroupStep (inp : BreedInput) (ctx : BreedCtx) (fuel : Nat) (req : Req)
    (group : EggGroup) : Req :=
  seedGroup inp (handle ctx fuel req group inp.goalMoves []).2 group

/-- `MovesetSearch.construct_breed_graph` (lines 367-462): Part I, then the
DFS plus seeding for each goal egg group.  The fuel `all_groups.card + 2`
strictly exceeds the deepest possible recursion (the path after the first
group contains distinct members of `all_groups`). -/
def constructBreedGraph (inp : BreedInput) : Req :=
  let ctx := breedCtxOf inp
  (goalEggGroupsOf inp).foldl (breedGroupStep inp ctx (ctx.allGroups.card + 2)) []

/-- Verification invariant for `handle`: how one call rooted at `group`
with path argument `path` may change the `breeds_required` table.  Entries
at groups in `path` are untouched; any other changed entry was lowered by
`min` with a written value of at least `path.length` (at the root group
itself) or `path.length + 1` (at any other group, which is only reached
deeper in the recursion). -/
def WriteOk (req req' : Req) (group : EggGroup) (path : List EggGroup) : Prop :=
  ∀ g m, (g ∈ path → reqGet req' g m = reqGet req g m) ∧
    (reqGet req' g m = reqGet req g m ∨
      ∃ w, (if g = group then path.length else path.length + 1) ≤ w ∧
        reqGet req' g m = some (min ((reqGet req g m).getD 999) w))

/-! ### Version deduplication (`MovesetSearch.find_duplicate_versions`, lines 470-496) -/

/-- The per-pokemon loop of `find_duplicate_versions` (lines 483-496),
for one pokemon.  Input: the pokemon's `(version_group, moves)` items in
dict-iteration order, with the move availability mapping abstracted to any
type `M` with decidable equality, plus `generation_id_by_version_group`.
Output: the classes (most recent first), each paired with the generation
and mapping of the version group that opened it; the Python `dupes` map
sends every member of a class to that class's shared mutable set. -/
def fdvAux {M : Type} [DecidableEq M] (gen : VersionGroup → Nat) :
    List (VersionGroup × M) → List (List VersionGroup × Nat × M)
  | [] => []
  | (vg, moves) :: rest =>
    (List.foldl
      (fun acc (p : VersionGroup × M) =>
        match acc with
        | [] => [([p.1], gen p.1, p.2)]
        | (cls, g, mv) :: tl =>
          if gen p.1 = g ∧ p.2 = mv then (cls ++ [p.1], g, mv) :: tl
          else ([p.1], gen p.1, p.2) :: (cls, g, mv) :: tl)
      [([vg], gen vg, moves)] rest)

/-! ### Search-space nodes and transitions (lines 559-641) -/

/-- The `Action` variants (lines 559-569). -/
inductive Action : Type where
  | start (pokemon : Pokemon) (versionGroup : VersionGroup)
  | learn (move : Move) (method : String)
  | forget (move : Move)
deriving DecidableEq, Repr

/-- `PokemonNode` (line 585): pokemon, current level, version group, known
moves and the "just leveled" flag (`new_level`). -/
structure PokemonNode : Type where
  pokemon : Pokemon
  level : Nat
  versionGroup : VersionGroup
  moves : Finset Move
  newLevel : Bool
deriving DecidableEq

/-- Methods and level/cost records available for one move:
`pokemon_moves[pokemon][version_group][move]` as an ordered list. -/
abbrev MethodRecords := List (String × List (Nat × Nat))

/-- `pokemon_moves[pokemon][version_group]` as an ordered list. -/
abbrev MovesData := List (Move × MethodRecords)

/-- The `MovesetSearch` attributes consulted during node expansion:
`pokemon_moves`, `egg_groups`, `evolution_chains`, `breeds_required` and
the cost table. -/
structure SearchData : Type where
  pokemonMoves : List (Pokemon × List (VersionGroup × MovesData))
  eggGroups : List (Chain × List EggGroup)
  evolutionChains : Pokemon → Chain
  breedsRequired : Req
  costs : String → Nat

/-- `search.pokemon_moves[pokemon][version_group]` (defaultdicts: missing
keys give an empty mapping). -/
def movesDataFor (s : SearchData) (p : Pokemon) (vg : VersionGroup) : MovesData :=
  ((alGet s.pokemonMoves p).bind (fun l => alGet l vg)).getD []

/-- A single expansion transition `(cost, action, next node)`. -/
abbrev Transition := Nat × Action × PokemonNode

/-- The transitions generated for one `(method, levels_costs)` entry of one
candidate move (lines 605-631).  `none` means the method is unrecognized
and the generator raises at this point. -/
def methodTrans (costs : String → Nat) (n : PokemonNode) (move : Move) :
    String → List (Nat × Nat) → Option (List Transition)
  | "level-up", lcs =>
    some (lcs.map (fun lc =>
      if n.level < lc.1 ∨ (lc.1 = n.level ∧ n.newLevel) then
        (lc.2 + (lc.1 - n.level) * costs "per-level", Action.learn move "level-up",
          { n with level := lc.1, newLevel := true, moves := insert move n.moves })
      else
        (costs "relearn", Action.learn move "relearn",
          { n with newLevel := false, moves := insert move n.moves })))
  | "machine", lcs =>
    some (lcs.map (fun lc => (lc.2, Action.learn move "machine",
      { n with newLevel := false, moves := insert move n.moves })))
  | "tutor", lcs =>
    some (lcs.map (fun lc => (lc.2, Action.learn move "tutor",
      { n with newLevel := false, moves := insert move n.moves })))
  | "egg", _ => some []
  | "light-ball-egg", lcs =>
    -- only valid at level 0; note `_learn` is called without a `new_level`
    -- keyword here, so the flag is carried over unchanged (line 623-626)
    some (if n.level = 0 then
      lcs.map (fun lc => (lc.2, Action.learn move "light-ball-egg",
        { n with moves := insert move n.moves }))
      else [])
  | "stadium-surfing-pikachu", lcs =>
    some (lcs.map (fun lc => (lc.2, Action.learn move "stadium-surfing-pikachu",
      { n with newLevel := false, moves := insert move n.moves })))
  | _, _ => none

/-- The generator over the methods of one candidate move: concatenated
yields, stopping with `ValueError` on an unrecognized method (line 631). -/
def methodsTrans (costs : String → Nat) (n : PokemonNode) (move : Move) :
    MethodRecords → List Transition × Option Err
  | [] => ([], none)
  | (method, lcs) :: rest =>
    match methodTrans costs n move method lcs with
    | some ts =>
      let r := methodsTrans costs n move rest
      (ts ++ r.1, r.2)
    | none => ([], some (Err.valueError ("Unknown move method " ++ method)))

/-- The outer loop of `PokemonNode.expand_learn` (lines 599-631): moves
already known are skipped (line 603-604); iteration stops at the first
raised error. -/
def movesTrans (costs : String → Nat) (n : PokemonNode) :
    MovesData → List Transition × Option Err
  | [] => ([], none)
  | (move, methods) :: rest =>
    if move ∈ n.moves then movesTrans costs n rest
    else
      let r := methodsTrans costs n move methods
      match r.2 with
      | some e => (r.1, some e)
      | none =>
        let r' := movesTrans costs n rest
        (r.1 ++ r'.1, r'.2)

/-- `PokemonNode.expand_learn` (lines 599-631) as yields plus optional
raised error. -/
def expandLearn (s : SearchData) (n : PokemonNode) : List Transition × Option Err :=
  movesTrans s.costs n (movesDataFor s n.pokemon n.versionGroup)

/-- `PokemonNode.expand_forget` (lines 637-641); the frozenset of known
moves is iterated in ascending order. -/
def expandForget (s : SearchData) (n : PokemonNode) : List Transition :=
  (ascList n.moves).map (fun m =>
    (s.costs "forget", Action.forget m,
      { n with moves := n.moves.erase m, newLevel := false }))

/-- `PokemonNode.expand` (lines 587-597): learn first when no moves are
known, learn while fewer than four are known, otherwise forget. -/
def expand (s : SearchData) (n : PokemonNode) : List Transition × Option Err :=
  if n.moves = ∅ then expandLearn s n
  else if n.moves.card < 4 then expandLearn s n
  else (expandForget s n, none)

/-- `InitialNode.expand` (lines 575-583): one start transition per
`(pokemon, version_group)` whose family's egg groups have any recorded
breeding requirement. -/
def initialExpand (s : SearchData) : List (Nat × Action × PokemonNode) :=
  s.pokemonMoves.flatMap (fun pv =>
    if ((alGet s.eggGroups (s.evolutionChains pv.1)).getD []).any
        (fun g => reqNonempty s.breedsRequired g) then
      pv.2.map (fun vgd => (0, Action.start pv.1 vgd.1,
        ⟨pv.1, 0, vgd.1, ∅, false⟩))
    else [])

/-- The full search-space node type: the initial pseudo-node plus pokemon
states. -/
inductive SNode : Type where
  | initial
  | poke (n : PokemonNode)
deriving DecidableEq

/-- One search step: an edge of the lazily expanded graph. -/
def Step (s : SearchData) : SNode → SNode → Prop
  | SNode.initial, SNode.poke n => ∃ t ∈ initialExpand s, n = t.2.2
  | SNode.poke n, SNode.poke n' => ∃ t ∈ (expand s n).1, n' = t.2.2
  | _, _ => False

/-- Reachability from the initial pseudo-state. -/
inductive Reachable (s : SearchData) : SNode → Prop where
  | init : Reachable s SNode.initial
  | step {a b : SNode} : Reachable s a → Step s a b → Reachable s b

/-! ### Concrete instances used as counterexamples and witnesses -/

/-- A breeding scenario: goal family (chain 100) is in egg groups 1 and 2;
family 101 (egg group 3) passes and learns both goal moves; family 102
(egg group 1) passes both but learns only move 10; family 103 (egg group
4) passes and learns move 11.  Both goal moves are egg moves for the goal
family. -/
def breedInst : BreedInput :=
  { eggGroups := [(100, [1, 2]), (101, [3]), (102, [1]), (103, [4])]
    goalChain := 100
    smeargleFamilies := ∅
    movepools := [(101, {10, 11}), (102, {10, 11}), (103, {11})]
    learnpools := [(101, {10, 11}), (102, {10}), (103, {11})]
    goalMoves := {10, 11}
    eggMoves := {10, 11} }

/-- A breeding scenario with a single goal egg group 7 and no donor
families; the single goal move 10 is not an egg move. -/
def breedInstSmall : BreedInput :=
  { eggGroups := [(100, [7])]
    goalChain := 100
    smeargleFamilies := ∅
    movepools := []
    learnpools := []
    goalMoves := {10}
    eggMoves := ∅ }

/-- Loader context: goal move 10, sketch id 99, everything in generation 5,
every pokemon in evolution chain 2. -/
def loadInstCtx : LoadCtx :=
  { goalMoves := {10}, sketch := 99, genByVG := fun _ => 5,
    evolutionChains := fun _ => 2, evolutionMoves := [], costs := defaultCosts }

/-- A single query row: pokemon 5 of chain 2 learns goal move 10 by machine
in version group 3. -/
def loadInstRows : List MoveRow := [⟨5, 10, 3, "machine", 0, 2⟩]

/-- Search data with a single learnable record: pokemon 1 learns move 50 by
level-up at level 7 in version group 2. -/
def levelUpInst : SearchData :=
  { pokemonMoves := [(1, [(2, [(50, [("level-up", [(7, 20)])])])])],
    eggGroups := [], evolutionChains := fun _ => 1, breedsRequired := [],
    costs := defaultCosts }

/-- Search data whose single move record uses the method `form-change`,
which `expand_learn` does not recognize. -/
def unknownMethodInst : SearchData :=
  { pokemonMoves := [(1, [(2, [(50, [("form-change", [(0, 100)])])])])],
    eggGroups := [], evolutionChains := fun _ => 1, breedsRequired := [],
    costs := defaultCosts }

/-- Search data with one pokemon (chain 1, egg group 7, a recorded breeding
requirement) and no move records, so that the initial node expands. -/
def startInst : SearchData :=
  { pokemonMoves := [(1, [(2, [])])],
    eggGroups := [(1, [7])], evolutionChains := fun _ => 1,
    breedsRequired := [(7, [({10}, 1)])],
    costs := defaultCosts }

/-!
## Part 2: lemmas and theorems
-/

/-! ### Association lists and set iteration -/

theorem alGet_alSet_same {α β : Type} [DecidableEq α] (l : List (α × β)) (a : α) (b : β) :
    alGet (alSet l a b) a = some b := by
  induction l with
  | nil => simp [alGet, alSet]
  | cons hd tl ih =>
    obtain ⟨a', b'⟩ := hd
    by_cases h : a' = a
    · simp [alSet, alGet, h]
    · simp [alSet, alGet, h, ih]

theorem alGet_alSet_other {α β : Type} [DecidableEq α] (l : List (α × β)) (a a' : α) (b : β)
    (h : a ≠ a') : alGet (alSet l a b) a' = alGet l a' := by
  induction l with
  | nil => simp [alGet, alSet, h]
  | cons hd tl ih =>
    obtain ⟨a'', b''⟩ := hd
    by_cases h2 : a'' = a
    · subst h2
      simp [alSet, alGet, h]
    · simp [alSet, alGet, h2, ih]

theorem mem_ascListAux (fuel : Nat) (s : Finset Nat) (hle : s.card ≤ fuel) (a : Nat) :
    a ∈ ascListAux fuel s ↔ a ∈ s := by
  induction fuel generalizing s with
  | zero =>
    have : s = ∅ := Finset.card_eq_zero.mp (Nat.le_zero.mp hle)
    subst this
    simp [ascListAux]
  | succ fuel ih =>
    by_cases h : s.Nonempty
    · have hmem := s.min'_mem h
      have hcard : (s.erase (s.min' h)).card ≤ fuel := by
        rw [Finset.card_erase_of_mem hmem]
        omega
      simp only [ascListAux, dif_pos h, List.mem_cons, ih _ hcard, Finset.mem_erase]
      constructor
      · rintro (rfl | ⟨_, hmem2⟩)
        · exact hmem
        · exact hmem2
      · intro ha
        by_cases heq : a = s.min' h
        · exact Or.inl heq
        · exact Or.inr ⟨heq, ha⟩
    · have : s = ∅ := Finset.not_nonempty_iff_eq_empty.mp h
      subst this
      simp [ascListAux, h]

theorem mem_ascList (s : Finset Nat) (a : Nat) : a ∈ ascList s ↔ a ∈ s :=
  mem_ascListAux s.card s le_rfl a

theorem ascList_toFinset (s : Finset Nat) : (ascList s).toFinset = s := by
  ext a
  simp [List.mem_toFinset, mem_ascList]

theorem mem_powersetAux (l : List Move) (S : Finset Move) (h : S ⊆ l.toFinset) :
    S ∈ powersetAux l := by
  induction l generalizing S with
  | nil =>
    simp only [List.toFinset_nil, Finset.subset_empty] at h
    simp [powersetAux, h]
  | cons a t ih =>
    simp only [List.toFinset_cons] at h
    by_cases ha : a ∈ S
    · have hsub : S.erase a ⊆ t.toFinset := by
        intro x hx
        rcases Finset.mem_erase.mp hx with ⟨hne, hxS⟩
        rcases Finset.mem_insert.mp (h hxS) with h1 | h2
        · exact absurd h1 hne
        · exact h2
      have : S.erase a ∈ powersetAux t := ih _ hsub
      have himg : insert a (S.erase a) ∈ (powersetAux t).map (insert a) :=
        List.mem_map.mpr ⟨S.erase a, this, rfl⟩
      rw [Finset.insert_erase ha] at himg
      exact List.mem_append.mpr (Or.inr himg)
    · have hsub : S ⊆ t.toFinset := by
        intro x hx
        rcases Finset.mem_insert.mp (h hx) with h1 | h2
        · exact absurd (h1 ▸ hx) ha
        · exact h2
      exact List.mem_append.mpr (Or.inl (ih _ hsub))

theorem subset_mem_powersetList (T S : Finset Move) (h : S ⊆ T) : S ∈ powersetList T := by
  apply mem_powersetAux
  rwa [ascList_toFinset]

/-! ### Claim C3: trade cost characterisation -/

/-- C3: for every pair of version groups with known generations and any
tuple of thing generations, `trade_cost` returns exactly what the claim's
case analysis prescribes: the trade cost for equal generations; `None`
when some traded thing's generation exceeds the destination's (only
checked for differing generations); for a source in generations 1-2 the
trade cost if the destination is also in 1-2 and `None` otherwise; `None`
for a destination in 1-2, for a backwards trade, and for a gap of more
than one generation; and the trade-plus-transfer cost exactly for an
adjacent forward transfer (`to = from + 1`, source generation at least 3). -/
theorem tradeCost_eq_spec (costs : String → Nat) (gens : VersionGroup → Nat)
    (vgFrom vgTo : VersionGroup) (thingGens : List Nat) :
    tradeCost costs gens vgFrom vgTo thingGens =
      tradeCostSpec costs gens vgFrom vgTo thingGens := by
  unfold tradeCost tradeCostSpec
  dsimp only
  split_ifs <;> first | rfl | omega

/-! ### Claim C4: setup rejection of 0 or more than 4 moves -/

/-- C4 (code bug): requesting five moves sets the error to
`NoMoves('Too many moves specified.')` (line 54 builds `NoMoves`, not the
`TooManyMoves` class declared at line 23), iterating raises that error, and
a zero-move request yields the `NoMoves` condition; a `NoMoves` value is
never equal to a `TooManyMoves` value, so the raised condition is not the
distinct `TooManyMoves` condition the specification requires. -/
theorem setup_five_moves_raises_noMoves :
    movesetSearchSetup [1, 2, 3, 4, 5] = some (Err.noMoves "Too many moves specified.") ∧
    searchIter (movesetSearchSetup [1, 2, 3, 4, 5]) =
      Except.error (Err.noMoves "Too many moves specified.") ∧
    movesetSearchSetup [] = some (Err.noMoves "No moves specified.") ∧
    ∀ msg, Err.noMoves "Too many moves specified." ≠ Err.tooManyMoves msg := by
  refine ⟨by decide, rfl, by decide, ?_⟩
  intro msg h
  exact Err.noConfusion h

/-! ### Claim C6: breeding requirement monotonicity fails -/

/-- C6 (code bug): on `breedInst`, after `construct_breed_graph` completes,
egg group 1 has `breeds_required[1][{11}] = 1` but
`breeds_required[1][{10, 11}] = 0`, although `{11}` is a subset of
`{10, 11}`: the recorded breed counts are not monotone, contradicting the
docstring's "minimum number of breeds needed" (lines 370-373). -/
theorem breeds_required_not_monotone :
    reqGet (constructBreedGraph breedInst) 1 {11} = some 1 ∧
    reqGet (constructBreedGraph breedInst) 1 {10, 11} = some 0 ∧
    ({11} : Finset Move) ⊆ {10, 11} ∧ ¬ (1 : Nat) ≤ 0 := by
  refine ⟨by decide, by decide, by decide, by decide⟩

/-! ### Claim C9: the 'others' selection still accumulates returned sets -/

/-- C9 (code bug): calling `load_pokemon_moves` with the `others` selection
on a row where a foreign family learns a goal move by machine returns
`easy_moves = non_egg_moves = {10}`, not the empty sets promised by the
docstring (lines 168-169) and the specification. -/
theorem load_others_returns_nonempty_sets :
    (loadPokemonMoves loadInstCtx (some 1) Selection.others loadInstRows
      emptyLoadState).easyMoves = {10} ∧
    (loadPokemonMoves loadInstCtx (some 1) Selection.others loadInstRows
      emptyLoadState).nonEggMoves = {10} ∧
    ({10} : Finset Move) ≠ (∅ : Finset Move) := by
  refine ⟨by decide, by decide, by decide⟩

/-! ### Claim C7: version deduplication classes -/

theorem fdv_fold_invariant {M : Type} [DecidableEq M] (gen : VersionGroup → Nat)
    (L : List (VersionGroup × M)) :
    ∀ (rest : List (VersionGroup × M)) (acc : List (List VersionGroup × Nat × M)),
      (∀ p ∈ rest, p ∈ L) →
      (∀ e ∈ acc, ∀ v ∈ e.1, gen v = e.2.1 ∧ (v, e.2.2) ∈ L) →
      ∀ e ∈ rest.foldl
        (fun acc (p : VersionGroup × M) =>
          match acc with
          | [] => [([p.1], gen p.1, p.2)]
          | (cls, g, mv) :: tl =>
            if gen p.1 = g ∧ p.2 = mv then (cls ++ [p.1], g, mv) :: tl
            else ([p.1], gen p.1, p.2) :: (cls, g, mv) :: tl) acc,
        ∀ v ∈ e.1, gen v = e.2.1 ∧ (v, e.2.2) ∈ L := by
  intro rest
  induction rest with
  | nil =>
    intro acc _ hacc
    simpa using hacc
  | cons p rest ih =>
    intro acc hrest hacc
    apply ih
    · intro q hq
      exact hrest q (List.mem_cons_of_mem p hq)
    · have hpL : p ∈ L := hrest p (List.mem_cons_self _ _)
    -- the new accumulator after one step keeps the invariant
      match acc, hacc with
      | [], _ =>
        intro e he v hv
        simp only [List.mem_singleton] at he
        subst he
        simp only [List.mem_singleton] at hv
        subst hv
        exact ⟨rfl, hpL⟩
      | (cls, g, mv) :: tl, hacc =>
        intro e he v hv
        dsimp only at he
        by_cases hcond : gen p.1 = g ∧ p.2 = mv
        · rw [if_pos hcond] at he
          rcases List.mem_cons.mp he with rfl | htl
          · rcases List.mem_append.mp hv with hold | hnew
            · exact hacc (cls, g, mv) (List.mem_cons_self _ _) v hold
            · simp only [List.mem_singleton] at hnew
              subst hnew
              refine ⟨hcond.1, ?_⟩
              have : (p.1, p.2) ∈ L := by
                simpa using hpL
              rwa [hcond.2] at this
          · exact hacc e (List.mem_cons_of_mem _ htl) v hv
        · rw [if_neg hcond] at he
          rcases List.mem_cons.mp he with rfl | htl
          · simp only [List.mem_singleton] at hv
            subst hv
            refine ⟨rfl, ?_⟩
            simpa using hpL
          · exact hacc e htl v hv

theorem assoc_key_unique {M : Type} (l : List (VersionGroup × M))
    (hnd : (l.map Prod.fst).Nodup) (a : VersionGroup) (b b' : M)
    (h1 : (a, b) ∈ l) (h2 : (a, b') ∈ l) : b = b' := by
  induction l with
  | nil => cases h1
  | cons hd tl ih =>
    obtain ⟨x, y⟩ := hd
    simp only [List.map_cons, List.nodup_cons] at hnd
    rcases List.mem_cons.mp h1 with h1h | h1'
    · rcases List.mem_cons.mp h2 with h2h | h2'
      · exact congrArg Prod.snd (h1h.trans h2h.symm)
      · exfalso
        injection h1h with hax _
        exact hnd.1 (hax ▸ List.mem_map.mpr ⟨(a, b'), h2', rfl⟩)
    · rcases List.mem_cons.mp h2 with h2h | h2'
      · exfalso
        injection h2h with hax _
        exact hnd.1 (hax ▸ List.mem_map.mpr ⟨(a, b), h1', rfl⟩)
      · exact ih hnd.2 h1' h2'

/-- C7 counterexample: three version groups, iterated in the order
`[1, 2, 3]`, all of generation 1, where groups 1 and 3 have the identical
move-availability mapping `7` and group 2 differs: groups 1 and 3 belong to
the same generation with identical mappings but no class produced by
`find_duplicate_versions` contains both, so the classes are not the
equivalence classes of "same generation and identical mapping" that the
claim asserts. -/
theorem fdv_not_an_equivalence_partition :
    fdvAux (fun _ => 1) [(1, (7 : Nat)), (2, 8), (3, 7)] =
      [([3], 1, 7), ([2], 1, 8), ([1], 1, 7)] ∧
    (¬ ∃ p ∈ fdvAux (fun _ => 1) [(1, (7 : Nat)), (2, 8), (3, 7)], 1 ∈ p.1 ∧ 3 ∈ p.1) := by
  refine ⟨by decide, by decide⟩

/-- C7 amended: every class produced by `find_duplicate_versions` for one
creature is homogeneous: all its members have the same generation and the
identical move-availability mapping (hence collapsing the class onto a
representative loses no learn edges); the code does not, however, merge
equal version groups that are not adjacent in the traversal. -/
theorem fdv_class_members_same_gen_and_moves {M : Type} [DecidableEq M]
    (gen : VersionGroup → Nat) (rows : List (VersionGroup × M))
    (hnd : (rows.map Prod.fst).Nodup)
    (c : List VersionGroup) (g : Nat) (mv : M) (hc : (c, g, mv) ∈ fdvAux gen rows)
    (v1 v2 : VersionGroup) (h1 : v1 ∈ c) (h2 : v2 ∈ c)
    (m1 m2 : M) (hm1 : (v1, m1) ∈ rows) (hm2 : (v2, m2) ∈ rows) :
    gen v1 = gen v2 ∧ m1 = m2 := by
  match rows, hc with
  | (vg, moves) :: rest, hc =>
    have hinv := fdv_fold_invariant gen ((vg, moves) :: rest) rest
      [([vg], gen vg, moves)]
      (fun p hp => List.mem_cons_of_mem _ hp)
      (by
        intro e he v hv
        simp only [List.mem_singleton] at he
        subst he
        simp only [List.mem_singleton] at hv
        subst hv
        exact ⟨rfl, List.mem_cons_self _ _⟩)
    have hc' := hinv (c, g, mv) hc
    obtain ⟨hg1, hL1⟩ := hc' v1 h1
    obtain ⟨hg2, hL2⟩ := hc' v2 h2
    constructor
    · rw [hg1, hg2]
    · have e1 : m1 = mv := assoc_key_unique _ hnd v1 m1 mv hm1 hL1
      have e2 : m2 = mv := assoc_key_unique _ hnd v2 m2 mv hm2 hL2
      rw [e1, e2]

/-- Witness for C7's amended theorem: on the concrete rows
`[(1, 7), (2, 7)]` with constant generation, both version groups land in
one class and the theorem yields equal generations and mappings. -/
theorem fdv_class_members_witness :
    (fun _ : VersionGroup => (1 : Nat)) 1 = (fun _ : VersionGroup => (1 : Nat)) 2 ∧
      (7 : Nat) = 7 :=
  fdv_class_members_same_gen_and_moves (fun _ => 1) [(1, (7 : Nat)), (2, 7)]
    (by decide) [1, 2] 1 7 (by decide) 1 2 (by decide) (by decide) 7 7
    (by decide) (by decide)

/-! ### Expansion lemmas (for claims C1, C2, C5, C8) -/

theorem methodTrans_mem (costs : String → Nat) (n : PokemonNode) (move : Move)
    (method : String) (lcs : List (Nat × Nat)) (ts : List Transition)
    (h : methodTrans costs n move method lcs = some ts) :
    ∀ t ∈ ts, (∃ mth, t.2.1 = Action.learn move mth) ∧ t.2.2.moves = insert move n.moves := by
  unfold methodTrans at h
  split at h
  · -- level-up
    injection h with h
    subst h
    intro t ht
    obtain ⟨lc, _, rfl⟩ := List.mem_map.mp ht
    by_cases hc : n.level < lc.1 ∨ (lc.1 = n.level ∧ n.newLevel)
    · rw [if_pos hc]
      exact ⟨⟨"level-up", rfl⟩, rfl⟩
    · rw [if_neg hc]
      exact ⟨⟨"relearn", rfl⟩, rfl⟩
  · -- machine
    injection h with h
    subst h
    intro t ht
    obtain ⟨lc, _, rfl⟩ := List.mem_map.mp ht
    exact ⟨⟨"machine", rfl⟩, rfl⟩
  · -- tutor
    injection h with h
    subst h
    intro t ht
    obtain ⟨lc, _, rfl⟩ := List.mem_map.mp ht
    exact ⟨⟨"tutor", rfl⟩, rfl⟩
  · -- egg
    injection h with h
    subst h
    intro t ht
    cases ht
  · -- light-ball-egg
    injection h with h
    subst h
    intro t ht
    by_cases hl : n.level = 0
    · rw [if_pos hl] at ht
      obtain ⟨lc, _, rfl⟩ := List.mem_map.mp ht
      exact ⟨⟨"light-ball-egg", rfl⟩, rfl⟩
    · rw [if_neg hl] at ht
      cases ht
  · -- stadium-surfing-pikachu
    injection h with h
    subst h
    intro t ht
    obtain ⟨lc, _, rfl⟩ := List.mem_map.mp ht
    exact ⟨⟨"stadium-surfing-pikachu", rfl⟩, rfl⟩
  · -- unrecognized
    simp at h

theorem methodsTrans_mem (costs : String → Nat) (n : PokemonNode) (move : Move)
    (l : MethodRecords) :
    ∀ t ∈ (methodsTrans costs n move l).1,
      (∃ mth, t.2.1 = Action.learn move mth) ∧ t.2.2.moves = insert move n.moves := by
  induction l with
  | nil => simp [methodsTrans]
  | cons hd rest ih =>
    obtain ⟨method, lcs⟩ := hd
    intro t ht
    cases hm : methodTrans costs n move method lcs with
    | some ts =>
      simp only [methodsTrans, hm] at ht
      rcases List.mem_append.mp ht with h1 | h2
      · exact methodTrans_mem costs n move method lcs ts hm t h1
      · exact ih t h2
    | none =>
      simp only [methodsTrans, hm] at ht
      cases ht

theorem movesTrans_mem (costs : String → Nat) (n : PokemonNode) (l : MovesData) :
    ∀ t ∈ (movesTrans costs n l).1,
      ∃ move, move ∉ n.moves ∧ (∃ mth, t.2.1 = Action.learn move mth) ∧
        t.2.2.moves = insert move n.moves := by
  induction l with
  | nil => simp [movesTrans]
  | cons hd rest ih =>
    obtain ⟨move, methods⟩ := hd
    intro t ht
    by_cases hg : move ∈ n.moves
    · rw [movesTrans, if_pos hg] at ht
      exact ih t ht
    · rw [movesTrans, if_neg hg] at ht
      cases hr2 : (methodsTrans costs n move methods).2 with
      | some e =>
        simp only [hr2] at ht
        exact ⟨move, hg, methodsTrans_mem costs n move methods t ht⟩
      | none =>
        simp only [hr2] at ht
        rcases List.mem_append.mp ht with h1 | h2
        · exact ⟨move, hg, methodsTrans_mem costs n move methods t h1⟩
        · exact ih t h2

theorem expandForget_mem (s : SearchData) (n : PokemonNode) :
    ∀ t ∈ expandForget s n,
      ∃ m, m ∈ n.moves ∧ t.2.1 = Action.forget m ∧ t.2.2.moves = n.moves.erase m := by
  intro t ht
  obtain ⟨m, hm, rfl⟩ := List.mem_map.mp ht
  exact ⟨m, (mem_ascList n.moves m).mp hm, rfl, rfl⟩

theorem expand_eq_learn (s : SearchData) (n : PokemonNode) (h : n.moves.card < 4) :
    expand s n = expandLearn s n := by
  unfold expand
  by_cases h0 : n.moves = ∅
  · rw [if_pos h0]
  · rw [if_neg h0, if_pos h]

theorem expand_eq_forget (s : SearchData) (n : PokemonNode) (h : ¬ n.moves.card < 4) :
    expand s n = (expandForget s n, none) := by
  have h0 : n.moves ≠ ∅ := by
    intro he
    rw [he] at h
    simp at h
  unfold expand
  rw [if_neg h0, if_neg h]

/-! ### Claim C1: expansion is gated solely by the known-move count -/

/-- C1: for every search context and every `PokemonNode`, if fewer than
four moves are known (including zero) then every transition of `expand` is
a `Learn` transition; if exactly four are known then every transition is a
`Forget` transition; and no state ever yields transitions of both kinds. -/
theorem expand_gated_by_move_count (s : SearchData) (n : PokemonNode) :
    (n.moves.card < 4 → ∀ t ∈ (expand s n).1, ∃ m mth, t.2.1 = Action.learn m mth) ∧
    (n.moves.card = 4 → ∀ t ∈ (expand s n).1, ∃ m, t.2.1 = Action.forget m) ∧
    ¬ ∃ t1 t2, t1 ∈ (expand s n).1 ∧ t2 ∈ (expand s n).1 ∧
      (∃ m mth, t1.2.1 = Action.learn m mth) ∧ (∃ m, t2.2.1 = Action.forget m) := by
  refine ⟨?_, ?_, ?_⟩
  · intro h4 t ht
    rw [expand_eq_learn s n h4] at ht
    obtain ⟨m, _, ⟨mth, he⟩, _⟩ := movesTrans_mem s.costs n _ t ht
    exact ⟨m, mth, he⟩
  · intro h4 t ht
    rw [expand_eq_forget s n (by omega)] at ht
    obtain ⟨m, _, he, _⟩ := expandForget_mem s n t ht
    exact ⟨m, he⟩
  · rintro ⟨t1, t2, ht1, ht2, ⟨m1, mth1, he1⟩, ⟨m2, he2⟩⟩
    by_cases h4 : n.moves.card < 4
    · rw [expand_eq_learn s n h4] at ht2
      obtain ⟨m, _, ⟨mth, he⟩, _⟩ := movesTrans_mem s.costs n _ t2 ht2
      rw [he] at he2
      exact Action.noConfusion he2
    · rw [expand_eq_forget s n h4] at ht1
      obtain ⟨m, _, he, _⟩ := expandForget_mem s n t1 ht1
      rw [he] at he1
      exact Action.noConfusion he1

/-- Witness for C1: on `levelUpInst` from the empty-moveset state the
expansion contains the concrete level-up transition, and the theorem's
first clause certifies it is a `Learn` transition. -/
theorem expand_gated_witness :
    ∃ m mth, ((27, Action.learn 50 "level-up",
      (⟨1, 7, 2, {50}, true⟩ : PokemonNode)) : Transition).2.1 = Action.learn m mth :=
  (expand_gated_by_move_count levelUpInst ⟨1, 0, 2, ∅, false⟩).1 (by decide) _ (by decide)

/-! ### Claim C2: reachable states hold at most 4 moves; steps change one move -/

theorem initialExpand_moves_empty (s : SearchData) :
    ∀ t ∈ initialExpand s, t.2.2.moves = ∅ := by
  intro t ht
  obtain ⟨pv, _, hin⟩ := List.mem_flatMap.mp ht
  by_cases hc : ((alGet s.eggGroups (s.evolutionChains pv.1)).getD []).any
      (fun g => reqNonempty s.breedsRequired g)
  · rw [if_pos hc] at hin
    obtain ⟨vgd, _, rfl⟩ := List.mem_map.mp hin
    rfl
  · rw [if_neg hc] at hin
    cases hin

theorem expand_next_card (s : SearchData) (n : PokemonNode) (h4 : n.moves.card ≤ 4) :
    ∀ t ∈ (expand s n).1, t.2.2.moves.card ≤ 4 := by
  intro t ht
  by_cases hc : n.moves.card < 4
  · rw [expand_eq_learn s n hc] at ht
    obtain ⟨m, hnm, _, hmoves⟩ := movesTrans_mem s.costs n _ t ht
    rw [hmoves, Finset.card_insert_of_not_mem hnm]
    omega
  · rw [expand_eq_forget s n hc] at ht
    obtain ⟨m, _, _, hmoves⟩ := expandForget_mem s n t ht
    rw [hmoves]
    calc (n.moves.erase m).card ≤ n.moves.card := Finset.card_erase_le
    _ ≤ 4 := h4

theorem reachable_card_le (s : SearchData) (nd : SNode) (h : Reachable s nd) :
    ∀ pn : PokemonNode, nd = SNode.poke pn → pn.moves.card ≤ 4 := by
  induction h with
  | init =>
    intro pn h
    exact SNode.noConfusion h
  | @step a b hr hstep ih =>
    intro pn heq
    subst heq
    cases a with
    | initial =>
      obtain ⟨t, ht, rfl⟩ := hstep
      rw [initialExpand_moves_empty s t ht]
      simp
    | poke an =>
      obtain ⟨t, ht, rfl⟩ := hstep
      exact expand_next_card s an (ih an rfl) t ht

/-- C2: every `PokemonNode` state reachable from the initial pseudo-state
carries at most four known moves, and each of its transitions changes the
known-move set by exactly one move: a `Learn` transition inserts a move not
already known and a `Forget` transition removes a known move. -/
theorem reachable_state_transitions (s : SearchData) (pn : PokemonNode)
    (h : Reachable s (SNode.poke pn)) :
    pn.moves.card ≤ 4 ∧
    ∀ t ∈ (expand s pn).1,
      (∃ m mth, t.2.1 = Action.learn m mth ∧ m ∉ pn.moves ∧
        t.2.2.moves = insert m pn.moves) ∨
      (∃ m, t.2.1 = Action.forget m ∧ m ∈ pn.moves ∧
        t.2.2.moves = pn.moves.erase m) := by
  refine ⟨reachable_card_le s _ h pn rfl, ?_⟩
  intro t ht
  by_cases hc : pn.moves.card < 4
  · rw [expand_eq_learn s pn hc] at ht
    obtain ⟨m, hnm, ⟨mth, he⟩, hmoves⟩ := movesTrans_mem s.costs pn _ t ht
    exact Or.inl ⟨m, mth, he, hnm, hmoves⟩
  · rw [expand_eq_forget s pn hc] at ht
    obtain ⟨m, hm, he, hmoves⟩ := expandForget_mem s pn t ht
    exact Or.inr ⟨m, he, hm, hmoves⟩

/-- Witness for C2: on `startInst` the state produced by the start
transition is reachable, and the theorem's conclusion holds for it. -/
theorem reachable_state_witness :
    (PokemonNode.moves ⟨1, 0, 2, ∅, false⟩).card ≤ 4 ∧
    ∀ t ∈ (expand startInst ⟨1, 0, 2, ∅, false⟩).1,
      (∃ m mth, t.2.1 = Action.learn m mth ∧ m ∉ (PokemonNode.moves ⟨1, 0, 2, ∅, false⟩) ∧
        t.2.2.moves = insert m (PokemonNode.moves ⟨1, 0, 2, ∅, false⟩)) ∨
      (∃ m, t.2.1 = Action.forget m ∧ m ∈ (PokemonNode.moves ⟨1, 0, 2, ∅, false⟩) ∧
        t.2.2.moves = (PokemonNode.moves ⟨1, 0, 2, ∅, false⟩).erase m) :=
  reachable_state_transitions startInst ⟨1, 0, 2, ∅, false⟩
    (Reachable.step Reachable.init
      ⟨(0, Action.start 1 2, ⟨1, 0, 2, ∅, false⟩), by decide, rfl⟩)

/-! ### Claim C5: level-up learn records -/

theorem methodsTrans_levelup_mem (costs : String → Nat) (n : PokemonNode) (move : Move)
    (methods : MethodRecords) (lcs : List (Nat × Nat)) (lvl cost : Nat)
    (hmth : ("level-up", lcs) ∈ methods) (hrec : (lvl, cost) ∈ lcs)
    (hnoerr : (methodsTrans costs n move methods).2 = none) :
    (if n.level < lvl ∨ (lvl = n.level ∧ n.newLevel) then
      (cost + (lvl - n.level) * costs "per-level", Action.learn move "level-up",
        { n with level := lvl, newLevel := true, moves := insert move n.moves })
    else
      (costs "relearn", Action.learn move "relearn",
        { n with newLevel := false, moves := insert move n.moves }))
      ∈ (methodsTrans costs n move methods).1 := by
  induction methods with
  | nil => cases hmth
  | cons hd rest ih =>
    obtain ⟨method, lcs'⟩ := hd
    rcases List.mem_cons.mp hmth with heq | hr
    · injection heq with h1 h2
      subst h1
      subst h2
      simp only [methodsTrans, methodTrans]
      apply List.mem_append.mpr
      left
      exact List.mem_map.mpr ⟨(lvl, cost), hrec, rfl⟩
    · cases hm : methodTrans costs n move method lcs' with
      | some ts =>
        simp only [methodsTrans, hm] at hnoerr ⊢
        exact List.mem_append.mpr (Or.inr (ih hr hnoerr))
      | none =>
        simp only [methodsTrans, hm] at hnoerr
        cases hnoerr

theorem movesTrans_levelup_mem (costs : String → Nat) (n : PokemonNode) (md : MovesData)
    (move : Move) (methods : MethodRecords) (lcs : List (Nat × Nat)) (lvl cost : Nat)
    (hmv : (move, methods) ∈ md) (hmove : move ∉ n.moves)
    (hmth : ("level-up", lcs) ∈ methods) (hrec : (lvl, cost) ∈ lcs)
    (hnoerr : (movesTrans costs n md).2 = none) :
    (if n.level < lvl ∨ (lvl = n.level ∧ n.newLevel) then
      (cost + (lvl - n.level) * costs "per-level", Action.learn move "level-up",
        { n with level := lvl, newLevel := true, moves := insert move n.moves })
    else
      (costs "relearn", Action.learn move "relearn",
        { n with newLevel := false, moves := insert move n.moves }))
      ∈ (movesTrans costs n md).1 := by
  induction md with
  | nil => cases hmv
  | cons hd rest ih =>
    obtain ⟨move', methods'⟩ := hd
    rcases List.mem_cons.mp hmv with heq | hr
    · injection heq with h1 h2
      subst h1
      subst h2
      rw [movesTrans, if_neg hmove] at hnoerr ⊢
      cases hr2 : (methodsTrans costs n move methods).2 with
      | some e =>
        simp only [hr2] at hnoerr
        cases hnoerr
      | none =>
        simp only [hr2]
        exact List.mem_append.mpr
          (Or.inl (methodsTrans_levelup_mem costs n move methods lcs lvl cost hmth hrec hr2))
    · by_cases hg : move' ∈ n.moves
      · rw [movesTrans, if_pos hg] at hnoerr ⊢
        exact ih hr hnoerr
      · rw [movesTrans, if_neg hg] at hnoerr ⊢
        cases hr2 : (methodsTrans costs n move' methods').2 with
        | some e =>
          simp only [hr2] at hnoerr
          cases hnoerr
        | none =>
          simp only [hr2] at hnoerr ⊢
          exact List.mem_append.mpr (Or.inr (ih hr hnoerr))

/-- C5: every level-up learn record `(lvl, cost)` offered from a
`PokemonNode` (a record of a move not yet known, reached without the
expansion raising) yields exactly the claimed transition: when the
record's level exceeds the current level, or equals it with the
just-leveled flag set, a `level-up` learn at the record's cost plus the
level difference times the per-level cost, moving to the record's level
with the flag set; otherwise a `relearn` learn at the fixed relearn cost
keeping the level with the flag cleared. -/
theorem levelup_record_transition (s : SearchData) (n : PokemonNode)
    (move : Move) (methods : MethodRecords) (lcs : List (Nat × Nat)) (lvl cost : Nat)
    (hmv : (move, methods) ∈ movesDataFor s n.pokemon n.versionGroup)
    (hmove : move ∉ n.moves)
    (hmth : ("level-up", lcs) ∈ methods) (hrec : (lvl, cost) ∈ lcs)
    (hnoerr : (expandLearn s n).2 = none) :
    (if n.level < lvl ∨ (lvl = n.level ∧ n.newLevel) then
      (cost + (lvl - n.level) * s.costs "per-level", Action.learn move "level-up",
        { n with level := lvl, newLevel := true, moves := insert move n.moves })
    else
      (s.costs "relearn", Action.learn move "relearn",
        { n with newLevel := false, moves := insert move n.moves }))
      ∈ (expandLearn s n).1 :=
  movesTrans_levelup_mem s.costs n _ move methods lcs lvl cost hmv hmove hmth hrec hnoerr

/-- Witness for C5: on `levelUpInst` from the empty-moveset state at level
0, the record (level 7, cost 20) yields the level-up transition to level 7
with flag set and cost 27. -/
theorem levelup_record_witness :
    (if (0 : Nat) < 7 ∨ ((7 : Nat) = 0 ∧ (false : Bool)) then
      ((20 : Nat) + (7 - 0) * defaultCosts "per-level", Action.learn 50 "level-up",
        (⟨1, 7, 2, insert 50 ∅, true⟩ : PokemonNode))
    else
      (defaultCosts "relearn", Action.learn 50 "relearn",
        (⟨1, 0, 2, insert 50 ∅, false⟩ : PokemonNode)))
      ∈ (expandLearn levelUpInst ⟨1, 0, 2, ∅, false⟩).1 :=
  levelup_record_transition levelUpInst ⟨1, 0, 2, ∅, false⟩ 50
    [("level-up", [(7, 20)])] [(7, 20)] 7 20
    (by decide) (by decide) (by decide) (by decide) (by decide)

/-! ### Claim C8: unrecognized learn methods -/

theorem methodTrans_unknown (costs : String → Nat) (n : PokemonNode) (move : Move)
    (method : String) (lcs : List (Nat × Nat))
    (hunk : method ∉ ["level-up", "machine", "tutor", "egg", "light-ball-egg",
      "stadium-surfing-pikachu"]) :
    methodTrans costs n move method lcs = none := by
  unfold methodTrans
  split
  · simp at hunk
  · simp at hunk
  · simp at hunk
  · simp at hunk
  · simp at hunk
  · simp at hunk
  · rfl

theorem methodsTrans_unknown_isSome (costs : String → Nat) (n : PokemonNode) (move : Move)
    (l : MethodRecords) (method : String) (lcs : List (Nat × Nat))
    (hmem : (method, lcs) ∈ l)
    (hunk : method ∉ ["level-up", "machine", "tutor", "egg", "light-ball-egg",
      "stadium-surfing-pikachu"]) :
    ∃ e, (methodsTrans costs n move l).2 = some e := by
  induction l with
  | nil => cases hmem
  | cons hd rest ih =>
    obtain ⟨method', lcs'⟩ := hd
    rcases List.mem_cons.mp hmem with heq | hr
    · injection heq with h1 h2
      subst h1
      subst h2
      rw [methodsTrans, methodTrans_unknown costs n move method lcs hunk]
      exact ⟨_, rfl⟩
    · cases hm : methodTrans costs n move method' lcs' with
      | some ts =>
        simp only [methodsTrans, hm]
        exact ih hr
      | none =>
        simp only [methodsTrans, hm]
        exact ⟨_, rfl⟩

theorem methodsTrans_err_valueError (costs : String → Nat) (n : PokemonNode) (move : Move)
    (l : MethodRecords) :
    ∀ e, (methodsTrans costs n move l).2 = some e → ∃ msg, e = Err.valueError msg := by
  induction l with
  | nil =>
    intro e he
    cases he
  | cons hd rest ih =>
    obtain ⟨method, lcs⟩ := hd
    intro e he
    cases hm : methodTrans costs n move method lcs with
    | some ts =>
      simp only [methodsTrans, hm] at he
      exact ih e he
    | none =>
      simp only [methodsTrans, hm] at he
      injection he with he
      exact ⟨_, he.symm⟩

theorem movesTrans_unknown_isSome (costs : String → Nat) (n : PokemonNode) (md : MovesData)
    (move : Move) (methods : MethodRecords) (method : String) (lcs : List (Nat × Nat))
    (hmv : (move, methods) ∈ md) (hmove : move ∉ n.moves)
    (hmth : (method, lcs) ∈ methods)
    (hunk : method ∉ ["level-up", "machine", "tutor", "egg", "light-ball-egg",
      "stadium-surfing-pikachu"]) :
    ∃ e, (movesTrans costs n md).2 = some e := by
  induction md with
  | nil => cases hmv
  | cons hd rest ih =>
    obtain ⟨move', methods'⟩ := hd
    rcases List.mem_cons.mp hmv with heq | hr
    · injection heq with h1 h2
      subst h1
      subst h2
      rw [movesTrans, if_neg hmove]
      obtain ⟨e, he⟩ := methodsTrans_unknown_isSome costs n move methods method lcs hmth hunk
      exact ⟨e, by simp only [he]⟩
    · by_cases hg : move' ∈ n.moves
      · rw [movesTrans, if_pos hg]
        exact ih hr
      · rw [movesTrans, if_neg hg]
        cases hr2 : (methodsTrans costs n move' methods').2 with
        | some e => exact ⟨e, by simp only [hr2]⟩
        | none =>
          simp only [hr2]
          exact ih hr

theorem movesTrans_err_valueError (costs : String → Nat) (n : PokemonNode) (md : MovesData) :
    ∀ e, (movesTrans costs n md).2 = some e → ∃ msg, e = Err.valueError msg := by
  induction md with
  | nil =>
    intro e he
    cases he
  | cons hd rest ih =>
    obtain ⟨move, methods⟩ := hd
    intro e he
    by_cases hg : move ∈ n.moves
    · rw [movesTrans, if_pos hg] at he
      exact ih e he
    · rw [movesTrans, if_neg hg] at he
      cases hr2 : (methodsTrans costs n move methods).2 with
      | some e2 =>
        simp only [hr2] at he
        injection he with he
        obtain ⟨msg, hm2⟩ := methodsTrans_err_valueError costs n move methods e2 hr2
        exact ⟨msg, he ▸ hm2⟩
      | none =>
        simp only [hr2] at he
        exact ih e he

/-- C8 counterexample: on `unknownMethodInst` (one record with method
`form-change`, outside the recognized set), expansion from the
empty-moveset state aborts, but the raised failure is the plain
`ValueError` of line 631, never a `MovesNotLearnable`-class failure as the
claim asserts. -/
theorem expand_unknown_method_not_movesNotLearnable :
    (expand unknownMethodInst ⟨1, 0, 2, ∅, false⟩).2 =
      some (Err.valueError "Unknown move method form-change") ∧
    ∀ msg, (expand unknownMethodInst ⟨1, 0, 2, ∅, false⟩).2 ≠
      some (Err.movesNotLearnable msg) := by
  have h0 : (expand unknownMethodInst ⟨1, 0, 2, ∅, false⟩).2 =
      some (Err.valueError "Unknown move method form-change") := by decide
  refine ⟨h0, ?_⟩
  intro msg h
  rw [h0] at h
  injection h with h
  exact Err.noConfusion h

/-- C8 amended: for every `PokemonNode` with fewer than four known moves
whose move data contains, for a move not already known, a learn record
with a method outside the recognized set, expansion aborts by raising a
failure rather than silently skipping the record; the failure raised is
the plain `ValueError` of line 631, not a `MovesNotLearnable`-class
failure. -/
theorem expand_unknown_method_aborts (s : SearchData) (n : PokemonNode)
    (hcard : n.moves.card < 4)
    (move : Move) (methods : MethodRecords) (method : String) (lcs : List (Nat × Nat))
    (hmv : (move, methods) ∈ movesDataFor s n.pokemon n.versionGroup)
    (hmove : move ∉ n.moves)
    (hmth : (method, lcs) ∈ methods)
    (hunk : method ∉ ["level-up", "machine", "tutor", "egg", "light-ball-egg",
      "stadium-surfing-pikachu"]) :
    (∃ e, (expand s n).2 = some e) ∧
    ∀ e, (expand s n).2 = some e → ∃ msg, e = Err.valueError msg := by
  rw [expand_eq_learn s n hcard]
  exact ⟨movesTrans_unknown_isSome s.costs n _ move methods method lcs hmv hmove hmth hunk,
    movesTrans_err_valueError s.costs n _⟩

/-- Witness for C8's amended theorem: the hypotheses hold on
`unknownMethodInst` at the empty-moveset state, so its expansion aborts
with a `ValueError`. -/
theorem expand_unknown_method_aborts_witness :
    (∃ e, (expand unknownMethodInst ⟨1, 0, 2, ∅, false⟩).2 = some e) ∧
    ∀ e, (expand unknownMethodInst ⟨1, 0, 2, ∅, false⟩).2 = some e →
      ∃ msg, e = Err.valueError msg :=
  expand_unknown_method_aborts unknownMethodInst ⟨1, 0, 2, ∅, false⟩ (by decide)
    50 [("form-change", [(0, 100)])] "form-change" [(0, 100)]
    (by decide) (by decide) (by decide) (by decide)

/-! ### Claim C10: the final seeding of `breeds_required` -/

theorem reqGet_reqSet_same (req : Req) (g : EggGroup) (m : Finset Move) (v : Nat) :
    reqGet (reqSet req g m v) g m = some v := by
  unfold reqGet reqSet
  rw [alGet_alSet_same]
  exact alGet_alSet_same _ m v

theorem reqGet_reqSet_same_g (req : Req) (g : EggGroup) (m m' : Finset Move) (v : Nat)
    (h : m ≠ m') : reqGet (reqSet req g m v) g m' = reqGet req g m' := by
  unfold reqGet reqSet
  rw [alGet_alSet_same]
  show alGet (alSet ((alGet req g).getD []) m v) m' = _
  rw [alGet_alSet_other _ m m' v h]
  cases halg : alGet req g with
  | none => simp [alGet]
  | some l => simp

theorem reqGet_reqSet_other_g (req : Req) (g g' : EggGroup) (m m' : Finset Move) (v : Nat)
    (h : g ≠ g') : reqGet (reqSet req g m v) g' m' = reqGet req g' m' := by
  unfold reqGet reqSet
  rw [alGet_alSet_other _ g g' _ h]

theorem writeOk_refl (req : Req) (group : EggGroup) (path : List EggGroup) :
    WriteOk req req group path :=
  fun _ _ => ⟨fun _ => rfl, Or.inl rfl⟩

theorem writeOk_trans {a b c : Req} {group : EggGroup} {path : List EggGroup}
    (h1 : WriteOk a b group path) (h2 : WriteOk b c group path) :
    WriteOk a c group path := by
  intro g m
  constructor
  · intro hg
    rw [(h2 g m).1 hg, (h1 g m).1 hg]
  · rcases (h2 g m).2 with heq | ⟨w2, hw2, hv2⟩
    · rw [heq]
      exact (h1 g m).2
    · rcases (h1 g m).2 with heq1 | ⟨w1, hw1, hv1⟩
      · right
        exact ⟨w2, hw2, by rw [hv2, heq1]⟩
      · right
        refine ⟨min w1 w2, le_min hw1 hw2, ?_⟩
        rw [hv2, hv1, Option.getD_some, min_assoc]

theorem writeOk_weaken {a b : Req} {ng group : EggGroup} {path : List EggGroup}
    (h : WriteOk a b ng (path ++ [group])) : WriteOk a b group path := by
  intro g m
  constructor
  · intro hg
    exact (h g m).1 (List.mem_append_left _ hg)
  · by_cases hgg : g = group
    · left
      exact (h g m).1 (by
        subst hgg
        exact List.mem_append_right _ (List.mem_singleton_self g))
    · rcases (h g m).2 with heq | ⟨w, hw, hv⟩
      · exact Or.inl heq
      · right
        refine ⟨w, ?_, hv⟩
        rw [if_neg hgg]
        rw [List.length_append, List.length_singleton] at hw
        by_cases hgn : g = ng
        · rw [if_pos hgn] at hw
          omega
        · rw [if_neg hgn] at hw
          omega

theorem writeOk_reqMin (req : Req) (group : EggGroup) (moves : Finset Move)
    (path : List EggGroup) (hnp : group ∉ path) :
    WriteOk req (reqMin req group moves path.length) group path := by
  intro g m
  constructor
  · intro hg
    have hne : group ≠ g := fun he => hnp (he ▸ hg)
    unfold reqMin
    exact reqGet_reqSet_other_g req group g moves m _ hne
  · by_cases hg : g = group
    · subst hg
      by_cases hm : m = moves
      · subst hm
        right
        refine ⟨path.length, by simp, ?_⟩
        unfold reqMin
        rw [reqGet_reqSet_same]
      · left
        unfold reqMin
        exact reqGet_reqSet_same_g req g moves m _ (fun he => hm he.symm)
    · left
      unfold reqMin
      exact reqGet_reqSet_other_g req group g moves m _ (fun he => hg he.symm)

theorem foldl_preserve {α σ : Type} (P : σ → Prop) (f : σ → α → σ) :
    ∀ (l : List α) (s : σ), P s → (∀ s a, a ∈ l → P s → P (f s a)) →
      P (l.foldl f s) := by
  intro l
  induction l with
  | nil =>
    intro s h0 _
    exact h0
  | cons a l ih =>
    intro s h0 hstep
    exact ih (f s a) (hstep s a (List.mem_cons_self _ _) h0)
      (fun s' a' ha' => hstep s' a' (List.mem_cons_of_mem _ ha'))

theorem handle_writeOk (ctx : BreedCtx) (fuel : Nat) :
    ∀ (req : Req) (group : EggGroup) (moves : Finset Move) (path : List EggGroup),
      group ∉ path → WriteOk req (handle ctx fuel req group moves path).2 group path := by
  induction fuel with
  | zero =>
    intro req group moves path hnp
    unfold handle
    split_ifs with h1 h2
    · exact writeOk_refl req group path
    · exact writeOk_refl req group path
    · exact writeOk_refl req group path
  | succ fuel ih =>
    intro req group moves path hnp
    unfold handle
    split_ifs with h1 h2
    · exact writeOk_refl req group path
    · exact writeOk_refl req group path
    · dsimp only
      refine foldl_preserve (fun acc : Bool × Req => WriteOk req acc.2 group path) _ _ _
        (writeOk_refl req group path) ?_
      intro acc newGroup hmem hacc
      have hng : newGroup ∉ path ++ [group] := by
        simpa using (List.mem_filter.mp hmem).2
      by_cases hsub : moves ⊆ eg1Of ctx newGroup
      · rw [if_pos hsub]
        refine foldl_preserve (fun acc : Bool × Req => WriteOk req acc.2 group path) _ _ _
          hacc ?_
        intro acc2 learned _ hacc2
        dsimp only
        have hw : WriteOk acc2.2
            (handle ctx fuel acc2.2 newGroup (moves \ learned) (path ++ [group])).2
            newGroup (path ++ [group]) :=
          ih acc2.2 newGroup (moves \ learned) (path ++ [group]) hng
        have hw2 : WriteOk req
            (handle ctx fuel acc2.2 newGroup (moves \ learned) (path ++ [group])).2
            group path :=
          writeOk_trans hacc2 (writeOk_weaken hw)
        by_cases hres :
            (handle ctx fuel acc2.2 newGroup (moves \ learned) (path ++ [group])).1 = true
        · rw [if_pos hres]
          exact writeOk_trans hw2 (writeOk_reqMin _ group moves path hnp)
        · rw [if_neg hres]
          exact hw2
      · rw [if_neg hsub]
        exact hacc

theorem seed_fold_other (group : EggGroup) (E : Finset Move) :
    ∀ (l : List (Finset Move)) (req : Req) (g : EggGroup) (m : Finset Move), g ≠ group →
      reqGet (l.foldl (fun r s => if s ≠ ∅ then reqSet r group (s ∪ E) 1 else r) req) g m =
        reqGet req g m := by
  intro l
  induction l with
  | nil =>
    intro req g m _
    rfl
  | cons S l ih =>
    intro req g m hne
    rw [List.foldl_cons]
    refine (ih _ g m hne).trans ?_
    by_cases hS : S ≠ ∅
    · rw [if_pos hS]
      exact reqGet_reqSet_other_g req group g _ m 1 (fun he => hne he.symm)
    · rw [if_neg hS]

theorem seed_fold_sets (group : EggGroup) (E : Finset Move) :
    ∀ (l : List (Finset Move)) (req : Req) (k : Finset Move),
      ((∃ S ∈ l, S ≠ ∅ ∧ S ∪ E = k) ∨ reqGet req group k = some 1) →
      reqGet (l.foldl (fun r s => if s ≠ ∅ then reqSet r group (s ∪ E) 1 else r) req)
        group k = some 1 := by
  intro l
  induction l with
  | nil =>
    intro req k h
    rcases h with ⟨S, hS, _⟩ | h1
    · cases hS
    · exact h1
  | cons S l ih =>
    intro req k h
    rw [List.foldl_cons]
    apply ih
    rcases h with ⟨S', hS', hne, hk⟩ | h1
    · rcases List.mem_cons.mp hS' with heq | hmem
      · right
        subst heq
        rw [if_pos hne]
        subst hk
        exact reqGet_reqSet_same req group _ 1
      · exact Or.inl ⟨S', hmem, hne, hk⟩
    · right
      by_cases hS0 : S ≠ ∅
      · rw [if_pos hS0]
        by_cases hkey : S ∪ E = k
        · subst hkey
          exact reqGet_reqSet_same req group _ 1
        · rw [reqGet_reqSet_same_g req group (S ∪ E) k 1 hkey]
          exact h1
      · rw [if_neg hS0]
        exact h1

theorem seedGroup_sets (inp : BreedInput) (req : Req) (group : EggGroup) (S : Finset Move)
    (hS : S ≠ ∅) (hsub : S ⊆ inp.goalMoves \ inp.eggMoves) :
    reqGet (seedGroup inp req group) group (S ∪ inp.eggMoves) = some 1 := by
  unfold seedGroup
  exact seed_fold_sets group inp.eggMoves _ req _
    (Or.inl ⟨S, subset_mem_powersetList _ S hsub, hS, rfl⟩)

theorem seedGroup_other (inp : BreedInput) (req : Req) (group g : EggGroup)
    (m : Finset Move) (h : g ≠ group) :
    reqGet (seedGroup inp req group) g m = reqGet req g m := by
  unfold seedGroup
  exact seed_fold_other group inp.eggMoves _ req g m h

theorem breed_fold_stable (inp : BreedInput) (ctx : BreedCtx) (fuel : Nat) :
    ∀ (l : List EggGroup) (req : Req) (g : EggGroup) (k : Finset Move),
      g ∉ l → reqGet req g k = some 1 →
      reqGet (l.foldl (breedGroupStep inp ctx fuel) req) g k = some 1 := by
  intro l
  induction l with
  | nil =>
    intro req g k _ h1
    exact h1
  | cons gj l ih =>
    intro req g k hg h1
    have hne : g ≠ gj := fun he => hg (he ▸ List.mem_cons_self _ _)
    have hgl : g ∉ l := fun he => hg (List.mem_cons_of_mem _ he)
    rw [List.foldl_cons]
    apply ih _ g k hgl
    unfold breedGroupStep
    rw [seedGroup_other inp _ gj g k hne]
    have hw := handle_writeOk ctx fuel req gj inp.goalMoves [] (List.not_mem_nil gj)
    rcases (hw g k).2 with heq | ⟨w, hwle, hv⟩
    · rw [heq]
      exact h1
    · rw [if_neg hne, List.length_nil] at hwle
      rw [h1, Option.getD_some] at hv
      rw [hv, Nat.min_eq_left hwle]

theorem breeds_required_all_seeded (inp : BreedInput) (ctx : BreedCtx) (fuel : Nat) :
    ∀ (l : List EggGroup) (req : Req), l.Nodup → ∀ g ∈ l, ∀ S : Finset Move, S ≠ ∅ →
      S ⊆ inp.goalMoves \ inp.eggMoves →
      reqGet (l.foldl (breedGroupStep inp ctx fuel) req) g (S ∪ inp.eggMoves) = some 1 := by
  intro l
  induction l with
  | nil =>
    intro req _ g hg
    cases hg
  | cons gj l ih =>
    intro req hnd g hg S hS hsub
    rw [List.foldl_cons]
    rcases List.mem_cons.mp hg with heq | hmem
    · subst heq
      apply breed_fold_stable inp ctx fuel l _ g _ (List.nodup_cons.mp hnd).1
      unfold breedGroupStep
      exact seedGroup_sets inp _ g S hS hsub
    · exact ih _ (List.nodup_cons.mp hnd).2 g hmem S hS hsub

/-- C10: after `construct_breed_graph` completes, for every breeding group
of the goal lineage (the goal egg groups are pairwise distinct, as the
loading query orders the two egg-group columns strictly) and every
non-empty subset `S` of the goal moves that are not egg moves,
`breeds_required[group][S ∪ egg_moves]` equals exactly 1: the final
seeding loop assigns 1 unconditionally, overwriting any smaller hop count
the preceding DFS recorded for the same key, and no later iteration can
lower a seeded entry below 1. -/
theorem breeds_required_seeded_to_one (inp : BreedInput)
    (hnd : (goalEggGroupsOf inp).Nodup)
    (g : EggGroup) (hg : g ∈ goalEggGroupsOf inp)
    (S : Finset Move) (hS : S ≠ ∅) (hsub : S ⊆ inp.goalMoves \ inp.eggMoves) :
    reqGet (constructBreedGraph inp) g (S ∪ inp.eggMoves) = some 1 := by
  unfold constructBreedGraph
  exact breeds_required_all_seeded inp _ _ _ [] hnd g hg S hS hsub

/-- Witness for C10: on `breedInstSmall` the single goal egg group 7 and
the non-egg goal subset `{10}` give `breeds_required[7][{10}] = 1`. -/
theorem breeds_required_seeded_witness :
    reqGet (constructBreedGraph breedInstSmall) 7
      ({10} ∪ breedInstSmall.eggMoves) = some 1 :=
  breeds_required_seeded_to_one breedInstSmall (by decide) 7 (by decide) {10}
    (by decide) (by decide)

end Movesets
